import Mathlib

/-!
Shallow embedding of the Banker's Algorithm simulator (src/main.rs) and
verification of the specified properties of its core functions
`safe_check`, `request_resource` and `release_resource`.

Machine integers (`i32`) are modelled as `Int`: no arithmetic in the
verified fragment depends on wrap-around (the rollback identities hold in
`Int` exactly as in wrapping arithmetic).  Rust `Vec<T>` is modelled as
`List T`; indexed reads `v[i]` become `List.getD v i d` and indexed writes
become `List.set`.  An out-of-range index panics in Rust; the theorems that
depend on indices being in range therefore carry explicit well-formedness
hypotheses (`WF`, `process_id < ...`) under which the embedding and the
source agree.
-/

namespace Bankers

/-- The ledger state, mirroring `struct SystemState` of src/main.rs:
`available`, `max`, `allocated`, `need` and `completed_process`. -/
structure SystemState where
  available : List Int
  max : List (List Int)
  allocated : List (List Int)
  need : List (List Int)
  completed_process : List Bool
deriving Repr, DecidableEq

/-- Componentwise addition loop: `for i in 0..src.len() { v[i] += src[i] }`
truncated at the shorter list.  It models both the `cloned_resource[j] +=
state.allocated[i][j]` loop of `safe_check` (and of `release_resource`) and
the `+= request[i]` updates of `request_resource`; in the source all the
zipped lengths are equal, an overhang would panic there. -/
def addVec : List Int → List Int → List Int
  | [], _ => []
  | v, [] => v
  | a :: v, b :: w => (a + b) :: addVec v w

/-- Componentwise subtraction loop, modelling the `-= request[i]` updates of
`request_resource` (lines 50–54 and 59–63 of src/main.rs). -/
def subVec : List Int → List Int → List Int
  | [], _ => []
  | v, [] => v
  | a :: v, b :: w => (a - b) :: subVec v w

/-- Zeroes the first `n` entries of `v`, modelling
`state.allocated[process_id][i] = 0` for `i` in `0..n` (line 71). -/
def zeroN : List Int → Nat → List Int
  | v, 0 => v
  | [], _ => []
  | _ :: v, n + 1 => 0 :: zeroN v n

/-- Overwrites the first `n` entries of `v` with the corresponding entries
of `w`, modelling `state.need[process_id][i] = state.max[process_id][i]`
for `i` in `0..n` (line 72). -/
def copyN : List Int → List Int → Nat → List Int
  | v, _, 0 => v
  | [], _, _ => []
  | _ :: v, w, n + 1 => w.headD 0 :: copyN v w.tail n

/-- The eligibility test of `safe_check` (line 28):
`state.need[i].iter().zip(&cloned_resource).all(|(n, w)| n <= w)`. -/
def eligibleRow (needRow work : List Int) : Bool :=
  (needRow.zip work).all fun p => decide (p.1 ≤ p.2)

/-- The inner `for i in 0..state.max.len()` sweep of `safe_check`
(lines 27–35): scan the given indices left to right; every index that is
not yet done and whose need fits into the working vector is marked done,
its allocation is added into the working vector and `found` is set. -/
def scanPass (need alloc : List (List Int)) :
    List Nat → List Int × List Bool × Bool → List Int × List Bool × Bool
  | [], acc => acc
  | i :: rest, (work, done, found) =>
    if done.getD i true = false ∧ eligibleRow (need.getD i []) work = true then
      scanPass need alloc rest (addVec work (alloc.getD i []), done.set i true, true)
    else
      scanPass need alloc rest (work, done, found)

/-- The outer `for _ in 0..state.max.len()` loop of `safe_check`
(lines 25–39): up to `fuel` sweeps over `0..P`, stopping early as soon as a
sweep marks nobody. -/
def safeLoop (need alloc : List (List Int)) (P : Nat) :
    Nat → List Int → List Bool → List Bool
  | 0, _, done => done
  | fuel + 1, work, done =>
    if (scanPass need alloc (List.range P) (work, done, false)).2.2 = true then
      safeLoop need alloc P fuel
        (scanPass need alloc (List.range P) (work, done, false)).1
        (scanPass need alloc (List.range P) (work, done, false)).2.1
    else (scanPass need alloc (List.range P) (work, done, false)).2.1

/-- `safe_check` of src/main.rs (lines 21–41): clone `available`, start with
an all-`false` done vector of length `max.len()`, run the sweeps, and return
whether every process ended up done. -/
def safe_check (s : SystemState) : Bool :=
  (safeLoop s.need s.allocated s.max.length s.max.length s.available
      (List.replicate s.max.length false)).all fun f => f

/-- The tentative-grant loop of `request_resource` (lines 50–54):
subtract the request from `available`, add it to `allocated[process_id]`,
subtract it from `need[process_id]`. -/
def tentativeGrant (s : SystemState) (process_id : Nat) (request : List Int) :
    SystemState :=
  { s with
    available := subVec s.available request
    allocated := s.allocated.set process_id
      (addVec (s.allocated.getD process_id []) request)
    need := s.need.set process_id
      (subVec (s.need.getD process_id []) request) }

/-- The rollback loop of `request_resource` (lines 59–63): the componentwise
inverse of the tentative grant. -/
def rollbackGrant (s : SystemState) (process_id : Nat) (request : List Int) :
    SystemState :=
  { s with
    available := addVec s.available request
    allocated := s.allocated.set process_id
      (subVec (s.allocated.getD process_id []) request)
    need := s.need.set process_id
      (addVec (s.need.getD process_id []) request) }

/-- `request_resource` of src/main.rs (lines 43–66), returning the updated
state together with the returned `bool`.  The precondition test uses the
source's zip: `request.iter().zip(..).any(|(r, n)| r > n)`. -/
def request_resource (s : SystemState) (process_id : Nat) (request : List Int) :
    SystemState × Bool :=
  if ((request.zip (s.need.getD process_id [])).any fun p => decide (p.2 < p.1)) = true
      ∨ ((request.zip s.available).any fun p => decide (p.2 < p.1)) = true then
    (s, false)
  else if safe_check (tentativeGrant s process_id request) = true then
    (tentativeGrant s process_id request, true)
  else
    (rollbackGrant (tentativeGrant s process_id request) process_id request, false)

/-- `release_resource` of src/main.rs (lines 68–75): for `i` in
`0..available.len()` add `allocated[process_id][i]` back into `available`,
zero `allocated[process_id][i]`, reset `need[process_id][i]` to
`max[process_id][i]`; finally mark the process completed. -/
def release_resource (s : SystemState) (process_id : Nat) : SystemState :=
  { s with
    available := addVec s.available (s.allocated.getD process_id [])
    allocated := s.allocated.set process_id
      (zeroN (s.allocated.getD process_id []) s.available.length)
    need := s.need.set process_id
      (copyN (s.need.getD process_id []) (s.max.getD process_id [])
        s.available.length)
    completed_process := s.completed_process.set process_id true }

/-- Following the spec's words (§4.1, glossary): `need[p][r] <= work[r]`
for every resource `r` of the row. -/
def specLeVec (a b : List Int) : Prop :=
  ∀ r < a.length, a.getD r 0 ≤ b.getD r 0

instance (a b : List Int) : Decidable (specLeVec a b) := by
  unfold specLeVec; infer_instance

/-- Following the spec's words (glossary, "safe state"): the processes
listed in `ord` can be run to completion in that order: each one's need
fits into the working vector at its turn, after which its allocation is
returned to the working vector. -/
def seqFeasible (need alloc : List (List Int)) : List Int → List Nat → Prop
  | _, [] => True
  | work, i :: rest =>
    specLeVec (need.getD i []) work ∧
      seqFeasible need alloc (addVec work (alloc.getD i [])) rest

/-- Following the spec's words: some order of running all `max.len()`
processes to completion exists, starting from `available`. -/
def specSafeAll (s : SystemState) : Prop :=
  ∃ ord : List Nat, ord.Nodup ∧ (∀ i, i ∈ ord ↔ i < s.max.length) ∧
    seqFeasible s.need s.allocated s.available ord

/-- Following the spec's words (§4.1): some order of running all
*not-yet-completed* processes to completion exists, starting from
`available` — the property the spec claims `safe_check` decides. -/
def specSafeActive (s : SystemState) : Prop :=
  ∃ ord : List Nat, ord.Nodup ∧
    (∀ i, i ∈ ord ↔ (i < s.max.length ∧ s.completed_process.getD i false = false)) ∧
    seqFeasible s.need s.allocated s.available ord

/-- Dimensional well-formedness of a ledger (§3 of the spec): the three
matrices have one row per process and all rows have the same length as
`available`.  Under `WF` every index access of the source is in range. -/
def WF (s : SystemState) : Prop :=
  s.need.length = s.max.length ∧ s.allocated.length = s.max.length ∧
  (∀ row ∈ s.need, row.length = s.available.length) ∧
  (∀ row ∈ s.allocated, row.length = s.available.length)

instance (s : SystemState) : Decidable (WF s) := by
  unfold WF; infer_instance

/-- Every entry of the vector is nonnegative. -/
def NonnegVec (v : List Int) : Prop := ∀ x ∈ v, 0 ≤ x

instance (v : List Int) : Decidable (NonnegVec v) := by
  unfold NonnegVec; infer_instance

/-- Every entry of the matrix is nonnegative. -/
def NonnegMat (m : List (List Int)) : Prop := ∀ row ∈ m, NonnegVec row

instance (m : List (List Int)) : Decidable (NonnegMat m) := by
  unfold NonnegMat; infer_instance

/-- The conserved quantity of the spec (§3, §8):
`available[r] + sum over p of allocated[p][r]`. -/
def totalOf (s : SystemState) (r : Nat) : Int :=
  s.available.getD r 0 + (s.allocated.map fun row => row.getD r 0).sum

/-- The working vector after running the processes of `ord` in order:
each one returns its allocation into the pool. -/
def workAfter (alloc : List (List Int)) (w : List Int) (ord : List Nat) : List Int :=
  ord.foldl (fun wi i => addVec wi (alloc.getD i [])) w

/-- Relation between a sweep configuration `(work, done)` and the list
`ord` of processes finished so far, in the order the scan finished them. -/
structure InvAt (need alloc : List (List Int)) (P : Nat) (w0 work : List Int)
    (done : List Bool) (ord : List Nat) : Prop where
  hlen : done.length = P
  hnd : ord.Nodup
  hmem : ∀ i, done.getD i false = true ↔ i ∈ ord
  hbnd : ∀ i ∈ ord, i < P
  hwork : work = workAfter alloc w0 ord
  hseq : seqFeasible need alloc w0 ord

/-! ### Example ledgers used by witnesses and counterexamples -/

/-- A one-process, one-resource ledger in a safe state with one free unit. -/
def w1 : SystemState := ⟨[1], [[1]], [[0]], [[1]], [false]⟩

/-- A one-process ledger in an unsafe state: the process may still need one
unit but nothing is available. -/
def exUnsafe : SystemState := ⟨[0], [[1]], [[0]], [[1]], [false]⟩

/-- A ledger whose only process is already completed (so its `need` row has
been reset to `max`) while `available` is empty. -/
def exCompleted : SystemState := ⟨[0], [[5]], [[0]], [[5]], [true]⟩

/-- A two-process, two-resource ledger where each process needs a disjoint
resource. -/
def w2 : SystemState :=
  ⟨[1, 1], [[1, 0], [0, 1]], [[0, 0], [0, 0]], [[1, 0], [0, 1]], [false, false]⟩


/-! ### Basic list lemmas -/

theorem set_getD_self {α : Type _} : ∀ (l : List α) (i : Nat) (d : α),
    l.set i (l.getD i d) = l
  | [], _, _ => rfl
  | _ :: _, 0, _ => rfl
  | a :: l, i + 1, d => congrArg (a :: ·) (set_getD_self l i d)

theorem getD_set_self {α : Type _} : ∀ (l : List α) (i : Nat) (x d : α),
    i < l.length → (l.set i x).getD i d = x
  | _ :: _, 0, _, _, _ => rfl
  | _ :: l, i + 1, x, d, h => getD_set_self l i x d (Nat.lt_of_succ_lt_succ h)
  | [], i, _, _, h => absurd h (Nat.not_lt_zero i)

theorem getD_set_ne {α : Type _} : ∀ (l : List α) (i j : Nat) (x d : α),
    i ≠ j → (l.set i x).getD j d = l.getD j d
  | [], _, _, _, _, _ => rfl
  | _ :: _, 0, 0, _, _, h => absurd rfl h
  | _ :: _, 0, _ + 1, _, _, _ => rfl
  | _ :: _, _ + 1, 0, _, _, _ => rfl
  | _ :: l, i + 1, j + 1, x, d, h =>
    getD_set_ne l i j x d (fun hij => h (congrArg Nat.succ hij))

theorem set_of_length_le {α : Type _} : ∀ (l : List α) (i : Nat) (x : α),
    l.length ≤ i → l.set i x = l
  | [], _, _, _ => rfl
  | _ :: _, 0, _, h => absurd h (Nat.not_succ_le_zero _)
  | a :: l, i + 1, x, h =>
    congrArg (a :: ·) (set_of_length_le l i x (Nat.le_of_succ_le_succ h))

theorem tail_getD (w : List Int) (r : Nat) : w.tail.getD r 0 = w.getD (r + 1) 0 := by
  cases w <;> simp [List.getD]

theorem headD_eq_getD (w : List Int) : w.headD 0 = w.getD 0 0 := by
  cases w <;> simp [List.getD]

/-! ### Componentwise vector lemmas -/

theorem length_addVec : ∀ (v w : List Int), (addVec v w).length = v.length
  | [], _ => by simp [addVec]
  | _ :: _, [] => by simp [addVec]
  | a :: v, b :: w => by simp [addVec, length_addVec v w]

theorem length_subVec : ∀ (v w : List Int), (subVec v w).length = v.length
  | [], _ => by simp [subVec]
  | _ :: _, [] => by simp [subVec]
  | a :: v, b :: w => by simp [subVec, length_subVec v w]

theorem getD_addVec : ∀ (v w : List Int) (r : Nat),
    (addVec v w).getD r 0 = v.getD r 0 + if r < v.length then w.getD r 0 else 0
  | [], w, r => by simp [addVec, List.getD]
  | a :: v, [], r => by simp [addVec, List.getD]
  | a :: v, b :: w, 0 => by simp [addVec]
  | a :: v, b :: w, r + 1 => by
    simp only [addVec, List.getD_cons_succ, List.length_cons, Nat.succ_lt_succ_iff]
    exact getD_addVec v w r

theorem getD_subVec : ∀ (v w : List Int) (r : Nat),
    (subVec v w).getD r 0 = v.getD r 0 - if r < v.length then w.getD r 0 else 0
  | [], w, r => by simp [subVec, List.getD]
  | a :: v, [], r => by simp [subVec, List.getD]
  | a :: v, b :: w, 0 => by simp [subVec]
  | a :: v, b :: w, r + 1 => by
    simp only [subVec, List.getD_cons_succ, List.length_cons, Nat.succ_lt_succ_iff]
    exact getD_subVec v w r

theorem addVec_subVec_cancel : ∀ (v w : List Int), addVec (subVec v w) w = v
  | [], _ => by simp [subVec, addVec]
  | _ :: _, [] => by simp [subVec, addVec]
  | a :: v, b :: w => by
    simp [subVec, addVec, addVec_subVec_cancel v w, Int.sub_add_cancel]

theorem subVec_addVec_cancel : ∀ (v w : List Int), subVec (addVec v w) w = v
  | [], _ => by simp [subVec, addVec]
  | _ :: _, [] => by simp [subVec, addVec]
  | a :: v, b :: w => by
    simp [subVec, addVec, subVec_addVec_cancel v w, Int.add_sub_cancel]

theorem subVec_zero : ∀ (v w : List Int), (∀ x ∈ w, x = 0) → subVec v w = v
  | [], _, _ => by simp [subVec]
  | _ :: _, [], _ => by simp [subVec]
  | a :: v, b :: w, h => by
    have hb : b = 0 := h b (List.mem_cons_self b w)
    simp [subVec, hb, subVec_zero v w fun x hx => h x (List.mem_cons_of_mem _ hx)]

theorem addVec_zero : ∀ (v w : List Int), (∀ x ∈ w, x = 0) → addVec v w = v
  | [], _, _ => by simp [addVec]
  | _ :: _, [], _ => by simp [addVec]
  | a :: v, b :: w, h => by
    have hb : b = 0 := h b (List.mem_cons_self b w)
    simp [addVec, hb, addVec_zero v w fun x hx => h x (List.mem_cons_of_mem _ hx)]

theorem length_zeroN : ∀ (v : List Int) (n : Nat), (zeroN v n).length = v.length
  | _, 0 => by simp [zeroN]
  | [], _ + 1 => by simp [zeroN]
  | _ :: v, n + 1 => by simp [zeroN, length_zeroN v n]

theorem getD_zeroN : ∀ (v : List Int) (n r : Nat),
    (zeroN v n).getD r 0 = if r < n ∧ r < v.length then 0 else v.getD r 0
  | v, 0, r => by simp [zeroN]
  | [], n + 1, r => by simp [zeroN, List.getD]
  | x :: v, n + 1, 0 => by
    simp only [zeroN, List.getD_cons_zero, List.length_cons]
    rw [if_pos ⟨Nat.succ_pos n, Nat.succ_pos v.length⟩]
  | x :: v, n + 1, r + 1 => by
    simp only [zeroN, List.getD_cons_succ, List.length_cons, Nat.succ_lt_succ_iff]
    exact getD_zeroN v n r

theorem length_copyN : ∀ (v w : List Int) (n : Nat), (copyN v w n).length = v.length
  | _, _, 0 => by simp [copyN]
  | [], _, _ + 1 => by simp [copyN]
  | _ :: v, w, n + 1 => by simp [copyN, length_copyN v w.tail n]

theorem getD_copyN : ∀ (v w : List Int) (n r : Nat),
    (copyN v w n).getD r 0 = if r < n ∧ r < v.length then w.getD r 0 else v.getD r 0
  | v, w, 0, r => by simp [copyN]
  | [], w, n + 1, r => by simp [copyN, List.getD]
  | x :: v, w, n + 1, 0 => by
    simp only [copyN, List.getD_cons_zero, headD_eq_getD, List.length_cons]
    rw [if_pos ⟨Nat.succ_pos n, Nat.succ_pos v.length⟩]
  | x :: v, w, n + 1, r + 1 => by
    simp only [copyN, List.getD_cons_succ, List.length_cons, Nat.succ_lt_succ_iff]
    rw [getD_copyN v w.tail n r, tail_getD]

theorem getD_mem : ∀ (l : List Int) (r : Nat), r < l.length → l.getD r 0 ∈ l
  | a :: _, 0, _ => List.mem_cons_self a _
  | _ :: l, r + 1, h =>
    List.mem_cons_of_mem _ (getD_mem l r (Nat.lt_of_succ_lt_succ h))
  | [], r, h => absurd h (Nat.not_lt_zero r)

theorem getD_rowD_mem : ∀ (m : List (List Int)) (i : Nat), i < m.length → m.getD i [] ∈ m
  | a :: _, 0, _ => List.mem_cons_self a _
  | _ :: m, i + 1, h =>
    List.mem_cons_of_mem _ (getD_rowD_mem m i (Nat.lt_of_succ_lt_succ h))
  | [], i, h => absurd h (Nat.not_lt_zero i)

theorem getD_mem_zip : ∀ (a b : List Int) (r : Nat), r < a.length → r < b.length →
    (a.getD r 0, b.getD r 0) ∈ a.zip b
  | _ :: _, _ :: _, 0, _, _ => List.mem_cons_self _ _
  | _ :: a, _ :: b, r + 1, ha, hb =>
    List.mem_cons_of_mem _
      (getD_mem_zip a b r (Nat.lt_of_succ_lt_succ ha) (Nat.lt_of_succ_lt_succ hb))
  | [], _, r, ha, _ => absurd ha (Nat.not_lt_zero r)
  | _ :: _, [], r, _, hb => absurd hb (Nat.not_lt_zero r)

theorem nonnegVec_getD (v : List Int) (h : NonnegVec v) (r : Nat) : 0 ≤ v.getD r 0 := by
  by_cases hr : r < v.length
  · exact h _ (getD_mem v r hr)
  · rw [List.getD_eq_default v 0 (Nat.le_of_not_lt hr)]

theorem nonnegVec_of_getD (v : List Int) (h : ∀ r, 0 ≤ v.getD r 0) : NonnegVec v := by
  intro x hx
  obtain ⟨i, hi, rfl⟩ := List.mem_iff_getElem.mp hx
  rw [← List.getD_eq_getElem v 0 hi]
  exact h i

theorem nonnegMat_rowD (m : List (List Int)) (h : NonnegMat m) (i : Nat) :
    NonnegVec (m.getD i []) := by
  by_cases hi : i < m.length
  · exact h _ (getD_rowD_mem m i hi)
  · rw [List.getD_eq_default m [] (Nat.le_of_not_lt hi)]
    intro x hx
    exact absurd hx (List.not_mem_nil x)

/-! ### Grant / rollback algebra -/

/-- Setting a row to its componentwise-updated value and then applying the
inverse update restores the matrix: the `allocated`-row shape of the
rollback identity. -/
theorem set_addVec_set_subVec (l : List (List Int)) (pid : Nat) (req : List Int) :
    (l.set pid (addVec (l.getD pid []) req)).set pid
      (subVec ((l.set pid (addVec (l.getD pid []) req)).getD pid []) req) = l := by
  by_cases h : pid < l.length
  · rw [getD_set_self l pid _ [] h, subVec_addVec_cancel, List.set_set, set_getD_self]
  · rw [set_of_length_le l pid _ (Nat.le_of_not_lt h),
      set_of_length_le l pid _ (Nat.le_of_not_lt h)]

/-- The `need`-row shape of the rollback identity. -/
theorem set_subVec_set_addVec (l : List (List Int)) (pid : Nat) (req : List Int) :
    (l.set pid (subVec (l.getD pid []) req)).set pid
      (addVec ((l.set pid (subVec (l.getD pid []) req)).getD pid []) req) = l := by
  by_cases h : pid < l.length
  · rw [getD_set_self l pid _ [] h, addVec_subVec_cancel, List.set_set, set_getD_self]
  · rw [set_of_length_le l pid _ (Nat.le_of_not_lt h),
      set_of_length_le l pid _ (Nat.le_of_not_lt h)]

/-- The rollback loop is the exact inverse of the tentative-grant loop. -/
theorem rollbackGrant_tentativeGrant (s : SystemState) (pid : Nat) (req : List Int) :
    rollbackGrant (tentativeGrant s pid req) pid req = s := by
  cases s with
  | mk avail mx alloc nd comp =>
    unfold rollbackGrant tentativeGrant
    simp only [SystemState.mk.injEq]
    exact ⟨addVec_subVec_cancel avail req, trivial,
      set_addVec_set_subVec alloc pid req, set_subVec_set_addVec nd pid req, trivial⟩

/-- The row `pid` of the matrix after a `set pid (subVec row req)` update is
`subVec row req`, also when `pid` is out of range (both sides collapse). -/
theorem getD_set_subVec (l : List (List Int)) (pid : Nat) (req : List Int) :
    (l.set pid (subVec (l.getD pid []) req)).getD pid [] = subVec (l.getD pid []) req := by
  by_cases h : pid < l.length
  · exact getD_set_self l pid _ [] h
  · rw [set_of_length_le l pid _ (Nat.le_of_not_lt h),
      List.getD_eq_default l [] (Nat.le_of_not_lt h)]
    simp [subVec]

theorem getD_set_addVec (l : List (List Int)) (pid : Nat) (req : List Int) :
    (l.set pid (addVec (l.getD pid []) req)).getD pid [] = addVec (l.getD pid []) req := by
  by_cases h : pid < l.length
  · exact getD_set_self l pid _ [] h
  · rw [set_of_length_le l pid _ (Nat.le_of_not_lt h),
      List.getD_eq_default l [] (Nat.le_of_not_lt h)]
    simp [addVec]

/-! ### Result characterisation of `request_resource` -/

/-- When `request_resource` returns `false`, the state it returns is the
input state, bit for bit: either the preconditions failed before any
mutation, or the rollback undid the tentative grant exactly. -/
theorem request_resource_false_state (s : SystemState) (pid : Nat) (req : List Int)
    (h : (request_resource s pid req).2 = false) :
    (request_resource s pid req).1 = s := by
  unfold request_resource at h ⊢
  by_cases h1 : ((req.zip (s.need.getD pid [])).any fun p => decide (p.2 < p.1)) = true
      ∨ ((req.zip s.available).any fun p => decide (p.2 < p.1)) = true
  · rw [if_pos h1]
  · rw [if_neg h1] at h ⊢
    by_cases h2 : safe_check (tentativeGrant s pid req) = true
    · rw [if_pos h2] at h
      exact absurd h (by simp)
    · rw [if_neg h2, rollbackGrant_tentativeGrant]

/-- When `request_resource` returns `true`, the state it returns is the
committed tentative grant. -/
theorem request_resource_true_state (s : SystemState) (pid : Nat) (req : List Int)
    (h : (request_resource s pid req).2 = true) :
    (request_resource s pid req).1 = tentativeGrant s pid req := by
  unfold request_resource at h ⊢
  by_cases h1 : ((req.zip (s.need.getD pid [])).any fun p => decide (p.2 < p.1)) = true
      ∨ ((req.zip s.available).any fun p => decide (p.2 < p.1)) = true
  · rw [if_pos h1] at h
    exact absurd h (by simp)
  · rw [if_neg h1] at h ⊢
    by_cases h2 : safe_check (tentativeGrant s pid req) = true
    · rw [if_pos h2]
    · rw [if_neg h2] at h
      exact absurd h (by simp)

/-- When `request_resource` returns `true`, the safety check accepted the
committed state. -/
theorem request_resource_true_safeCheck (s : SystemState) (pid : Nat) (req : List Int)
    (h : (request_resource s pid req).2 = true) :
    safe_check (tentativeGrant s pid req) = true := by
  unfold request_resource at h
  by_cases h1 : ((req.zip (s.need.getD pid [])).any fun p => decide (p.2 < p.1)) = true
      ∨ ((req.zip s.available).any fun p => decide (p.2 < p.1)) = true
  · rw [if_pos h1] at h
    exact absurd h (by simp)
  · rw [if_neg h1] at h
    by_cases h2 : safe_check (tentativeGrant s pid req) = true
    · exact h2
    · rw [if_neg h2] at h
      exact absurd h (by simp)

/-- If `request_resource` returned `true`, both precondition scans came back
clean. -/
theorem request_resource_true_precond (s : SystemState) (pid : Nat) (req : List Int)
    (h : (request_resource s pid req).2 = true) :
    ((req.zip (s.need.getD pid [])).any fun p => decide (p.2 < p.1)) = false ∧
    ((req.zip s.available).any fun p => decide (p.2 < p.1)) = false := by
  unfold request_resource at h
  by_cases h1 : ((req.zip (s.need.getD pid [])).any fun p => decide (p.2 < p.1)) = true
      ∨ ((req.zip s.available).any fun p => decide (p.2 < p.1)) = true
  · rw [if_pos h1] at h
    exact absurd h (by simp)
  · rw [not_or] at h1
    exact ⟨Bool.not_eq_true _ |>.mp h1.1, Bool.not_eq_true _ |>.mp h1.2⟩

/-- A clean precondition scan bounds the request componentwise on the zipped
range. -/
theorem precond_pointwise (req v : List Int)
    (h : ((req.zip v).any fun p => decide (p.2 < p.1)) = false) :
    ∀ r, r < req.length → r < v.length → req.getD r 0 ≤ v.getD r 0 := by
  intro r h1 h2
  by_contra hlt
  push_neg at hlt
  have hT : ((req.zip v).any fun p => decide (p.2 < p.1)) = true :=
    List.any_eq_true.mpr
      ⟨(req.getD r 0, v.getD r 0), getD_mem_zip req v r h1 h2, by simpa using hlt⟩
  rw [h] at hT
  exact absurd hT (by simp)

/-- A zero request against a nonnegative vector passes the exceedance scan. -/
theorem any_exceeds_false_of_zero (v req : List Int) (hz : ∀ x ∈ req, x = 0)
    (hv : NonnegVec v) :
    ((req.zip v).any fun p => decide (p.2 < p.1)) = false := by
  rw [Bool.eq_false_iff]
  intro hany
  obtain ⟨⟨a, b⟩, hm, hp⟩ := List.any_eq_true.mp hany
  obtain ⟨h1, h2⟩ := List.of_mem_zip hm
  have ha := hz a h1
  have hb := hv b h2
  simp only [decide_eq_true_eq] at hp
  omega

/-- A zero request leaves the tentative grant as a no-op. -/
theorem tentativeGrant_zero (s : SystemState) (pid : Nat) (req : List Int)
    (hz : ∀ x ∈ req, x = 0) : tentativeGrant s pid req = s := by
  cases s with
  | mk avail mx alloc nd comp =>
    unfold tentativeGrant
    simp only [SystemState.mk.injEq]
    refine ⟨subVec_zero _ _ hz, trivial, ?_, ?_, trivial⟩
    · rw [addVec_zero _ _ hz, set_getD_self]
    · rw [subVec_zero _ _ hz, set_getD_self]

/-- A zero rollback is likewise a no-op. -/
theorem rollbackGrant_zero (s : SystemState) (pid : Nat) (req : List Int)
    (hz : ∀ x ∈ req, x = 0) : rollbackGrant s pid req = s := by
  cases s with
  | mk avail mx alloc nd comp =>
    unfold rollbackGrant
    simp only [SystemState.mk.injEq]
    refine ⟨addVec_zero _ _ hz, trivial, ?_, ?_, trivial⟩
    · rw [subVec_zero _ _ hz, set_getD_self]
    · rw [addVec_zero _ _ hz, set_getD_self]

/-- Effect of overwriting row `pid` on the per-resource allocation sum. -/
theorem sum_map_getD_set : ∀ (l : List (List Int)) (pid : Nat) (x : List Int) (r : Nat),
    pid < l.length →
    ((l.set pid x).map fun row => row.getD r 0).sum =
      (l.map fun row => row.getD r 0).sum + x.getD r 0 - (l.getD pid []).getD r 0
  | a :: l, 0, x, r, _ => by
    simp only [List.set_cons_zero, List.map_cons, List.sum_cons, List.getD_cons_zero]
    ring
  | a :: l, pid + 1, x, r, h => by
    simp only [List.set_cons_succ, List.map_cons, List.sum_cons, List.getD_cons_succ]
    rw [sum_map_getD_set l pid x r (Nat.lt_of_succ_lt_succ h)]
    ring
  | [], pid, _, _, h => absurd h (Nat.not_lt_zero pid)


/-! ### Claim theorems -/

/-- C1: for every ledger state, process id and request vector, if
`request_resource` returns `true` then `safe_check` on the resulting ledger
state returns `true` — no grant ever produces an unsafe state. -/
theorem no_unsafe_grant (s : SystemState) (pid : Nat) (req : List Int)
    (h : (request_resource s pid req).2 = true) :
    safe_check (request_resource s pid req).1 = true := by
  rw [request_resource_true_state s pid req h]
  exact request_resource_true_safeCheck s pid req h

/-- Witness for `no_unsafe_grant`: a concrete granted request. -/
theorem no_unsafe_grant_witness :
    (request_resource w1 0 [1]).2 = true ∧
      safe_check (request_resource w1 0 [1]).1 = true :=
  ⟨by decide, no_unsafe_grant w1 0 [1] (by decide)⟩

/-- C2: if `request_resource` returns `false`, the ledger's `available`,
`allocated[process_id]` and `need[process_id]` after the call are identical
to their values before the call — the rollback is exact. -/
theorem rollback_exactness (s : SystemState) (pid : Nat) (req : List Int)
    (h : (request_resource s pid req).2 = false) :
    (request_resource s pid req).1.available = s.available ∧
    (request_resource s pid req).1.allocated.getD pid [] = s.allocated.getD pid [] ∧
    (request_resource s pid req).1.need.getD pid [] = s.need.getD pid [] := by
  rw [request_resource_false_state s pid req h]
  exact ⟨rfl, rfl, rfl⟩

/-- Witness for `rollback_exactness`: a concrete denied request. -/
theorem rollback_exactness_witness :
    (request_resource exUnsafe 0 [0]).2 = false ∧
    ((request_resource exUnsafe 0 [0]).1.available = exUnsafe.available ∧
      (request_resource exUnsafe 0 [0]).1.allocated.getD 0 [] =
        exUnsafe.allocated.getD 0 [] ∧
      (request_resource exUnsafe 0 [0]).1.need.getD 0 [] =
        exUnsafe.need.getD 0 []) :=
  ⟨by decide, rollback_exactness exUnsafe 0 [0] (by decide)⟩

/-- C4: a request exceeding `need[process_id]` or `available` in some
component is rejected before the tentative grant: `request_resource`
returns `false` and the entire ledger is unchanged. -/
theorem precondition_reject_no_mutation (s : SystemState) (pid : Nat)
    (req : List Int) (r : Nat) (hr : r < req.length)
    (hbad : (r < (s.need.getD pid []).length ∧
        (s.need.getD pid []).getD r 0 < req.getD r 0)
      ∨ (r < s.available.length ∧ s.available.getD r 0 < req.getD r 0)) :
    request_resource s pid req = (s, false) := by
  have hc : ((req.zip (s.need.getD pid [])).any fun p => decide (p.2 < p.1)) = true
      ∨ ((req.zip s.available).any fun p => decide (p.2 < p.1)) = true := by
    rcases hbad with ⟨hlen, hlt⟩ | ⟨hlen, hlt⟩
    · exact Or.inl (List.any_eq_true.mpr
        ⟨(req.getD r 0, (s.need.getD pid []).getD r 0),
          getD_mem_zip req _ r hr hlen, by simpa using hlt⟩)
    · exact Or.inr (List.any_eq_true.mpr
        ⟨(req.getD r 0, s.available.getD r 0),
          getD_mem_zip req _ r hr hlen, by simpa using hlt⟩)
  unfold request_resource
  rw [if_pos hc]

/-- Witness for `precondition_reject_no_mutation`: a request strictly above
the need row. -/
theorem precondition_reject_no_mutation_witness :
    (0 < ([2] : List Int).length ∧
      (0 < (w1.need.getD 0 []).length ∧ (w1.need.getD 0 []).getD 0 0 < (2 : Int))) ∧
    request_resource w1 0 [2] = (w1, false) :=
  ⟨⟨by decide, by decide, by decide⟩,
    precondition_reject_no_mutation w1 0 [2] 0 (by decide)
      (Or.inl ⟨by decide, by decide⟩)⟩

/-- C5: conservation — for every resource index the quantity
`available[r] + sum over p of allocated[p][r]` is unchanged by every
`request_resource` call (granted or denied) and every `release_resource`
call. -/
theorem conservation (s : SystemState) (pid : Nat) (req : List Int)
    (hpid : pid < s.allocated.length)
    (hrow : (s.allocated.getD pid []).length = s.available.length) :
    (∀ r, totalOf (request_resource s pid req).1 r = totalOf s r) ∧
    (∀ r, totalOf (release_resource s pid) r = totalOf s r) := by
  constructor
  · intro r
    cases hb : (request_resource s pid req).2 with
    | false => rw [request_resource_false_state s pid req hb]
    | true =>
      rw [request_resource_true_state s pid req hb]
      unfold tentativeGrant totalOf
      simp only
      rw [sum_map_getD_set s.allocated pid _ r hpid, getD_subVec, getD_addVec, hrow]
      split_ifs <;> ring
  · intro r
    unfold release_resource totalOf
    simp only
    rw [sum_map_getD_set s.allocated pid _ r hpid, getD_addVec, getD_zeroN]
    by_cases h1 : r < s.available.length
    · by_cases h2 : r < (s.allocated.getD pid []).length
      · rw [if_pos h1, if_pos ⟨h1, h2⟩]
        ring
      · rw [if_pos h1, if_neg (fun hc => h2 hc.2),
          List.getD_eq_default _ 0 (Nat.le_of_not_lt h2)]
        ring
    · rw [if_neg h1, if_neg (fun hc => h1 hc.1)]
      ring

/-- Witness for `conservation` at a concrete ledger and resource index. -/
theorem conservation_witness :
    (0 < w1.allocated.length ∧ (w1.allocated.getD 0 []).length = w1.available.length) ∧
    totalOf (request_resource w1 0 [1]).1 0 = totalOf w1 0 ∧
    totalOf (release_resource w1 0) 0 = totalOf w1 0 :=
  ⟨⟨by decide, by decide⟩, (conservation w1 0 [1] (by decide) (by decide)).1 0,
    (conservation w1 0 [1] (by decide) (by decide)).2 0⟩

/-- C6 counterexample: the all-zero request at a safe state is granted yet
leaves the `need` row untouched, so no component strictly decreases. -/
theorem need_not_strictly_decreasing :
    (request_resource w1 0 [0]).2 = true ∧
    (request_resource w1 0 [0]).1.need = w1.need := by
  decide

/-- C6 (amended): after a successful `request_resource` with a componentwise
nonnegative request, `need[process_id]` never increases in any component,
and it strictly decreases in every in-range component where the request is
positive (hence in at least one component whenever the request is
nonzero on the row). -/
theorem need_monotone (s : SystemState) (pid : Nat) (req : List Int)
    (hpos : NonnegVec req)
    (h : (request_resource s pid req).2 = true) :
    (∀ r, ((request_resource s pid req).1.need.getD pid []).getD r 0
        ≤ (s.need.getD pid []).getD r 0) ∧
    ∀ j, j < req.length → j < (s.need.getD pid []).length → 0 < req.getD j 0 →
      ((request_resource s pid req).1.need.getD pid []).getD j 0
        < (s.need.getD pid []).getD j 0 := by
  rw [request_resource_true_state s pid req h]
  unfold tentativeGrant
  simp only
  rw [getD_set_subVec]
  constructor
  · intro r
    rw [getD_subVec]
    have := nonnegVec_getD req hpos r
    split_ifs <;> omega
  · intro j hj hjrow hposj
    rw [getD_subVec, if_pos hjrow]
    omega

/-- Witness for `need_monotone`: a granted positive request strictly
decreases the need component. -/
theorem need_monotone_witness :
    ((request_resource w1 0 [1]).1.need.getD 0 []).getD 0 0
      < (w1.need.getD 0 []).getD 0 0 :=
  (need_monotone w1 0 [1] (by decide) (by decide)).2 0 (by decide) (by decide)
    (by decide)

/-- C7 counterexample: on an unsafe ledger the all-zero request is rolled
back and denied — it is not always grantable. -/
theorem zero_request_denied_when_unsafe :
    (request_resource exUnsafe 0 [0]).2 = false := by
  decide

/-- C7 (amended): a componentwise-zero request (against nonnegative
`need[process_id]` and `available`) never changes the ledger, and it is
granted exactly when the current state already passes `safe_check`. -/
theorem zero_request_noop (s : SystemState) (pid : Nat) (req : List Int)
    (hz : ∀ x ∈ req, x = 0)
    (hneed : NonnegVec (s.need.getD pid []))
    (havail : NonnegVec s.available) :
    (request_resource s pid req).1 = s ∧
    (request_resource s pid req).2 = safe_check s := by
  have h1 : ¬(((req.zip (s.need.getD pid [])).any fun p => decide (p.2 < p.1)) = true
      ∨ ((req.zip s.available).any fun p => decide (p.2 < p.1)) = true) := by
    rw [any_exceeds_false_of_zero _ req hz hneed,
      any_exceeds_false_of_zero _ req hz havail]
    simp
  unfold request_resource
  rw [if_neg h1, tentativeGrant_zero s pid req hz]
  by_cases h2 : safe_check s = true
  · rw [if_pos h2]
    exact ⟨rfl, h2.symm⟩
  · rw [if_neg h2, rollbackGrant_zero s pid req hz]
    have h3 : safe_check s = false := by
      revert h2
      cases safe_check s <;> simp
    exact ⟨rfl, h3.symm⟩

/-- Witness for `zero_request_noop` at a concrete safe ledger. -/
theorem zero_request_noop_witness :
    (request_resource w1 0 [0]).1 = w1 ∧ (request_resource w1 0 [0]).2 = safe_check w1 :=
  zero_request_noop w1 0 [0] (fun x hx => by simpa using hx) (by decide) (by decide)

/-- C9: `safe_check` never reads `completed_process` — two snapshots that
differ only in the completion flags get the same verdict. -/
theorem safe_check_completed_independent (s : SystemState) (c : List Bool) :
    safe_check { s with completed_process := c } = safe_check s := rfl

/-- C10: `request_resource` leaves `max`, `completed_process` and the
`allocated`/`need` rows of every other process unchanged, whether it
returns `true` or `false`. -/
theorem request_resource_frame (s : SystemState) (pid : Nat) (req : List Int)
    (q : Nat) (hq : q ≠ pid) :
    (request_resource s pid req).1.max = s.max ∧
    (request_resource s pid req).1.completed_process = s.completed_process ∧
    (request_resource s pid req).1.allocated.getD q [] = s.allocated.getD q [] ∧
    (request_resource s pid req).1.need.getD q [] = s.need.getD q [] := by
  cases hb : (request_resource s pid req).2 with
  | false =>
    rw [request_resource_false_state s pid req hb]
    exact ⟨rfl, rfl, rfl, rfl⟩
  | true =>
    rw [request_resource_true_state s pid req hb]
    unfold tentativeGrant
    exact ⟨rfl, rfl, getD_set_ne _ pid q _ [] (Ne.symm hq),
      getD_set_ne _ pid q _ [] (Ne.symm hq)⟩


theorem request_resource_frame_witness :
    (request_resource w2 0 [1, 0]).1.max = w2.max ∧
    (request_resource w2 0 [1, 0]).1.completed_process = w2.completed_process ∧
    (request_resource w2 0 [1, 0]).1.allocated.getD 1 [] = w2.allocated.getD 1 [] ∧
    (request_resource w2 0 [1, 0]).1.need.getD 1 [] = w2.need.getD 1 [] :=
  request_resource_frame w2 0 [1, 0] 1 (by decide)

/-- C8 counterexample: a request with a negative component passes both
exceedance scans and the safety check, and drives `allocated` negative,
although the starting ledger satisfies all three nonnegativity
invariants. -/
theorem nonneg_not_preserved :
    NonnegVec w1.available ∧ NonnegMat w1.allocated ∧ NonnegMat w1.need ∧
    (request_resource w1 0 [-1]).2 = true ∧
    ((request_resource w1 0 [-1]).1.allocated.getD 0 []).getD 0 0 < 0 := by
  decide

/-- C8 (amended): the three nonnegativity invariants are preserved by
`request_resource` provided the request is componentwise nonnegative, and
by `release_resource` provided `max` is also componentwise nonnegative. -/
theorem nonneg_preserved (s : SystemState) (pid : Nat) (req : List Int)
    (ha : NonnegVec s.available) (hal : NonnegMat s.allocated)
    (hn : NonnegMat s.need) (hreq : NonnegVec req) (hmax : NonnegMat s.max) :
    (NonnegVec (request_resource s pid req).1.available ∧
      NonnegMat (request_resource s pid req).1.allocated ∧
      NonnegMat (request_resource s pid req).1.need) ∧
    (NonnegVec (release_resource s pid).available ∧
      NonnegMat (release_resource s pid).allocated ∧
      NonnegMat (release_resource s pid).need) := by
  constructor
  · cases hb : (request_resource s pid req).2 with
    | false =>
      rw [request_resource_false_state s pid req hb]
      exact ⟨ha, hal, hn⟩
    | true =>
      obtain ⟨hpre1, hpre2⟩ := request_resource_true_precond s pid req hb
      rw [request_resource_true_state s pid req hb]
      unfold tentativeGrant
      simp only
      refine ⟨?_, ?_, ?_⟩
      · apply nonnegVec_of_getD
        intro r
        rw [getD_subVec]
        by_cases h1 : r < s.available.length
        · rw [if_pos h1]
          by_cases h2 : r < req.length
          · have := precond_pointwise req s.available hpre2 r h2 h1
            have := nonnegVec_getD _ ha r
            omega
          · rw [List.getD_eq_default req 0 (Nat.le_of_not_lt h2)]
            have := nonnegVec_getD _ ha r
            omega
        · rw [if_neg h1]
          have := nonnegVec_getD _ ha r
          omega
      · intro row hrow
        rcases List.mem_or_eq_of_mem_set hrow with hmem | hEq
        · exact hal _ hmem
        · subst hEq
          apply nonnegVec_of_getD
          intro r
          rw [getD_addVec]
          have h1 := nonnegVec_getD _ (nonnegMat_rowD _ hal pid) r
          have h2 := nonnegVec_getD req hreq r
          split_ifs <;> omega
      · intro row hrow
        rcases List.mem_or_eq_of_mem_set hrow with hmem | hEq
        · exact hn _ hmem
        · subst hEq
          apply nonnegVec_of_getD
          intro r
          rw [getD_subVec]
          by_cases h1 : r < (s.need.getD pid []).length
          · rw [if_pos h1]
            by_cases h2 : r < req.length
            · have := precond_pointwise req _ hpre1 r h2 h1
              have := nonnegVec_getD _ (nonnegMat_rowD _ hn pid) r
              omega
            · rw [List.getD_eq_default req 0 (Nat.le_of_not_lt h2)]
              have := nonnegVec_getD _ (nonnegMat_rowD _ hn pid) r
              omega
          · rw [if_neg h1]
            have := nonnegVec_getD _ (nonnegMat_rowD _ hn pid) r
            omega
  · unfold release_resource
    simp only
    refine ⟨?_, ?_, ?_⟩
    · apply nonnegVec_of_getD
      intro r
      rw [getD_addVec]
      have h1 := nonnegVec_getD _ ha r
      have h2 := nonnegVec_getD _ (nonnegMat_rowD _ hal pid) r
      split_ifs <;> omega
    · intro row hrow
      rcases List.mem_or_eq_of_mem_set hrow with hmem | hEq
      · exact hal _ hmem
      · subst hEq
        apply nonnegVec_of_getD
        intro r
        rw [getD_zeroN]
        have := nonnegVec_getD _ (nonnegMat_rowD _ hal pid) r
        split_ifs <;> omega
    · intro row hrow
      rcases List.mem_or_eq_of_mem_set hrow with hmem | hEq
      · exact hn _ hmem
      · subst hEq
        apply nonnegVec_of_getD
        intro r
        rw [getD_copyN]
        have h1 := nonnegVec_getD _ (nonnegMat_rowD _ hn pid) r
        have h2 := nonnegVec_getD _ (nonnegMat_rowD _ hmax pid) r
        split_ifs <;> omega

/-- Witness for `nonneg_preserved` at a concrete nonnegative ledger. -/
theorem nonneg_preserved_witness :
    (NonnegVec (request_resource w1 0 [1]).1.available ∧
      NonnegMat (request_resource w1 0 [1]).1.allocated ∧
      NonnegMat (request_resource w1 0 [1]).1.need) ∧
    (NonnegVec (release_resource w1 0).available ∧
      NonnegMat (release_resource w1 0).allocated ∧
      NonnegMat (release_resource w1 0).need) :=
  nonneg_preserved w1 0 [1] (by decide) (by decide) (by decide) (by decide)
    (by decide)

/-- C3 counterexample: `safe_check` does NOT pre-seed its finished array
from `completed_process` (line 23 starts it all-`false`), so the completed
process of `exCompleted` — whose `need` row was reset to `max = [5]` — can
never fit into `work = [0]` and `safe_check` answers `false`, although
every not-yet-completed process (there are none) trivially runs to
completion. -/
theorem safe_check_not_preseeded :
    safe_check exCompleted = false ∧ specSafeActive exCompleted := by
  refine ⟨by decide, [], List.nodup_nil, ?_, trivial⟩
  intro i
  simp only [List.not_mem_nil, false_iff, not_and]
  intro hi
  have h0 : i = 0 := by
    have : i < 1 := hi
    omega
  subst h0
  decide

/-! ### The greedy safety scan versus the spec's safe-order property -/

theorem workAfter_cons (alloc : List (List Int)) (w : List Int) (i : Nat)
    (ord : List Nat) :
    workAfter alloc w (i :: ord) = workAfter alloc (addVec w (alloc.getD i [])) ord :=
  rfl

theorem workAfter_append (alloc : List (List Int)) (w : List Int)
    (l l' : List Nat) :
    workAfter alloc w (l ++ l') = workAfter alloc (workAfter alloc w l) l' := by
  unfold workAfter
  rw [List.foldl_append]

theorem length_workAfter (alloc : List (List Int)) :
    ∀ (ord : List Nat) (w : List Int), (workAfter alloc w ord).length = w.length
  | [], _ => rfl
  | i :: ord, w => by
    rw [workAfter_cons, length_workAfter alloc ord, length_addVec]

theorem getD_workAfter (alloc : List (List Int)) :
    ∀ (ord : List Nat) (w : List Int) (r : Nat),
    (workAfter alloc w ord).getD r 0 = w.getD r 0 +
      if r < w.length then (ord.map fun i => (alloc.getD i []).getD r 0).sum else 0
  | [], w, r => by
    simp [workAfter]
  | i :: ord, w, r => by
    rw [workAfter_cons, getD_workAfter alloc ord, getD_addVec, length_addVec]
    by_cases h : r < w.length
    · rw [if_pos h, if_pos h, if_pos h]
      simp only [List.map_cons, List.sum_cons]
      ring
    · rw [if_neg h, if_neg h, if_neg h]
      ring

/-- Sum of a nonnegative function over a duplicate-free sublist of indices
is at most the sum over any superset list. -/
theorem sum_map_le_of_subset (pre ordG : List Nat) (f : Nat → Int)
    (hnd : pre.Nodup) (hsub : pre ⊆ ordG) (hf : ∀ i, 0 ≤ f i) :
    (pre.map f).sum ≤ (ordG.map f).sum := by
  obtain ⟨l, hp, hs⟩ := List.Nodup.subperm hnd hsub
  calc (pre.map f).sum = (l.map f).sum := (List.Perm.sum_eq (hp.map f)).symm
    _ ≤ (ordG.map f).sum := List.Sublist.sum_le_sum (hs.map f) (by
        intro y hy
        obtain ⟨i, _, rfl⟩ := List.mem_map.mp hy
        exact hf i)

/-- Finishing more processes only grows the working vector, componentwise
(allocations are nonnegative). -/
theorem getD_workAfter_le (alloc : List (List Int)) (w : List Int)
    (pre ordG : List Nat) (hnd : pre.Nodup) (hsub : pre ⊆ ordG)
    (hpos : ∀ i, NonnegVec (alloc.getD i [])) (r : Nat) :
    (workAfter alloc w pre).getD r 0 ≤ (workAfter alloc w ordG).getD r 0 := by
  rw [getD_workAfter, getD_workAfter]
  by_cases h : r < w.length
  · rw [if_pos h, if_pos h]
    have := sum_map_le_of_subset pre ordG (fun i => (alloc.getD i []).getD r 0) hnd
      hsub (fun i => nonnegVec_getD _ (hpos i) r)
    omega
  · rw [if_neg h, if_neg h]

/-- The code's zipped eligibility test agrees with the spec's componentwise
comparison whenever the work vector is at least as long as the need row
(in the source both always have length R). -/
theorem eligibleRow_iff : ∀ (a b : List Int), a.length ≤ b.length →
    (eligibleRow a b = true ↔ specLeVec a b)
  | [], b, _ =>
    ⟨fun _ r hr => absurd hr (Nat.not_lt_zero r), fun _ => rfl⟩
  | a :: as2, [], h => absurd h (by simp)
  | x :: a, y :: b, h => by
    have ih := eligibleRow_iff a b (Nat.le_of_succ_le_succ h)
    simp only [eligibleRow, List.zip_cons_cons, List.all_cons, Bool.and_eq_true,
      decide_eq_true_eq]
    constructor
    · rintro ⟨hxy, hrest⟩ r hr
      cases r with
      | zero => exact hxy
      | succ r => exact ih.mp hrest r (Nat.lt_of_succ_lt_succ hr)
    · intro hle
      exact ⟨hle 0 (Nat.succ_pos _), ih.mpr fun r hr => hle (r + 1) (Nat.succ_lt_succ hr)⟩

/-- Once a sweep has found somebody, `found` stays `true`. -/
theorem scanPass_found_true (need alloc : List (List Int)) :
    ∀ (lst : List Nat) (work : List Int) (done : List Bool),
    (scanPass need alloc lst (work, done, true)).2.2 = true
  | [], _, _ => rfl
  | i :: rest, work, done => by
    unfold scanPass
    by_cases h : done.getD i true = false ∧ eligibleRow (need.getD i []) work = true
    · rw [if_pos h]
      exact scanPass_found_true need alloc rest _ _
    · rw [if_neg h]
      exact scanPass_found_true need alloc rest _ _

/-- A sweep that found nobody changed nothing, and nobody in its range was
both unfinished and eligible. -/
theorem scanPass_stuck (need alloc : List (List Int)) :
    ∀ (lst : List Nat) (work : List Int) (done : List Bool),
    (scanPass need alloc lst (work, done, false)).2.2 = false →
    scanPass need alloc lst (work, done, false) = (work, done, false) ∧
    ∀ i ∈ lst, ¬(done.getD i true = false ∧ eligibleRow (need.getD i []) work = true)
  | [], _, _, _ => ⟨rfl, by simp⟩
  | i :: rest, work, done, h => by
    unfold scanPass at h ⊢
    by_cases hc : done.getD i true = false ∧ eligibleRow (need.getD i []) work = true
    · rw [if_pos hc] at h
      rw [scanPass_found_true need alloc rest _ _] at h
      exact absurd h (by simp)
    · rw [if_neg hc] at h ⊢
      obtain ⟨heq, hall⟩ := scanPass_stuck need alloc rest work done h
      refine ⟨heq, ?_⟩
      intro j hj
      rcases List.mem_cons.mp hj with rfl | hj2
      · exact hc
      · exact hall j hj2


/-- Appending a process whose need fits into the accumulated work keeps the
order feasible. -/
theorem seqFeasible_append_one (need alloc : List (List Int)) :
    ∀ (ord : List Nat) (w : List Int) (i : Nat),
    seqFeasible need alloc w ord →
    specLeVec (need.getD i []) (workAfter alloc w ord) →
    seqFeasible need alloc w (ord ++ [i])
  | [], _, _, _, hle => ⟨hle, trivial⟩
  | j :: ord, w, i, hseq, hle => by
    obtain ⟨h1, h2⟩ := hseq
    exact ⟨h1, seqFeasible_append_one need alloc ord _ i h2
      (by rwa [workAfter_cons] at hle)⟩

/-- One sweep preserves the invariant; the finished list only grows, and it
grows strictly exactly when the sweep reports `found`. -/
theorem scanPass_inv (need alloc : List (List Int)) (P : Nat) (w0 : List Int)
    (hrowlen : ∀ i < P, (need.getD i []).length = w0.length) :
    ∀ (lst : List Nat) (work : List Int) (done : List Bool) (found : Bool)
      (ord : List Nat), (∀ i ∈ lst, i < P) →
    InvAt need alloc P w0 work done ord →
    ∃ ord2,
      InvAt need alloc P w0 (scanPass need alloc lst (work, done, found)).1
        (scanPass need alloc lst (work, done, found)).2.1 ord2 ∧
      ((scanPass need alloc lst (work, done, found)).2.2 = found ∧ ord2 = ord ∨
        (scanPass need alloc lst (work, done, found)).2.2 = true ∧
          ord.length < ord2.length)
  | [], work, done, found, ord, _, hinv => ⟨ord, hinv, Or.inl ⟨rfl, rfl⟩⟩
  | i :: rest, work, done, found, ord, hlst, hinv => by
    obtain ⟨hlen, hnd, hmem, hbnd, hwork, hseq⟩ := hinv
    unfold scanPass
    by_cases hc : done.getD i true = false ∧ eligibleRow (need.getD i []) work = true
    · rw [if_pos hc]
      have hiP : i < P := hlst i (List.mem_cons_self i rest)
      have hidone : i < done.length := by
        by_contra hge
        rw [List.getD_eq_default done true (Nat.le_of_not_lt hge)] at hc
        exact absurd hc.1 (by simp)
      have hinotord : i ∉ ord := by
        intro hmem2
        have h1 : done.getD i false = true := (hmem i).mpr hmem2
        rw [List.getD_eq_getElem done false hidone] at h1
        have h2 : done.getD i true = false := hc.1
        rw [List.getD_eq_getElem done true hidone] at h2
        rw [h1] at h2
        exact absurd h2 (by simp)
      have hweq : (need.getD i []).length ≤ work.length := by
        rw [hwork, length_workAfter]
        exact le_of_eq (hrowlen i hiP)
      have hspecle : specLeVec (need.getD i []) (workAfter alloc w0 ord) := by
        rw [← hwork]
        exact (eligibleRow_iff _ _ hweq).mp hc.2
      have hinv2 : InvAt need alloc P w0 (addVec work (alloc.getD i []))
          (done.set i true) (ord ++ [i]) := by
        refine ⟨by rw [List.length_set]; exact hlen, ?_, ?_, ?_, ?_, ?_⟩
        · simp [List.nodup_append, hnd, hinotord]
        · intro j
          by_cases hji : j = i
          · subst hji
            rw [getD_set_self done j true false hidone]
            simp
          · rw [getD_set_ne done i j true false fun e => hji e.symm, hmem j]
            simp [List.mem_append, hji]
        · intro j hj
          rcases List.mem_append.mp hj with hj1 | hj2
          · exact hbnd j hj1
          · rw [List.mem_singleton.mp hj2]
            exact hiP
        · rw [workAfter_append, ← hwork]
          rfl
        · exact seqFeasible_append_one need alloc ord w0 i hseq hspecle
      obtain ⟨ord2, hinv3, hdisj⟩ := scanPass_inv need alloc P w0 hrowlen rest _ _
        true (ord ++ [i]) (fun j hj => hlst j (List.mem_cons_of_mem _ hj)) hinv2
      refine ⟨ord2, hinv3, Or.inr ⟨?_, ?_⟩⟩
      · rcases hdisj with ⟨hf, _⟩ | ⟨hf, _⟩ <;> exact hf
      · have hgrow : (ord ++ [i]).length = ord.length + 1 := by simp
        rcases hdisj with ⟨_, hEq⟩ | ⟨_, hlt⟩
        · rw [hEq, hgrow]
          omega
        · omega
    · rw [if_neg hc]
      exact scanPass_inv need alloc P w0 hrowlen rest work done found ord
        (fun j hj => hlst j (List.mem_cons_of_mem _ hj))
        ⟨hlen, hnd, hmem, hbnd, hwork, hseq⟩

/-- The starting configuration of `safe_check` satisfies the invariant with
the empty finished list. -/
theorem initInv (need alloc : List (List Int)) (P : Nat) (w0 : List Int) :
    InvAt need alloc P w0 w0 (List.replicate P false) [] := by
  refine ⟨List.length_replicate P false, List.nodup_nil, ?_, by simp, rfl, trivial⟩
  intro i
  simp only [List.not_mem_nil, iff_false]
  intro h
  by_cases hi : i < P
  · rw [List.getD_eq_getElem _ false (by simpa using hi)] at h
    simp at h
  · rw [List.getD_eq_default _ false (by simpa using Nat.le_of_not_lt hi)] at h
    exact absurd h (by simp)

/-- The outer loop preserves the invariant down to its returned done
vector. -/
theorem safeLoop_inv (need alloc : List (List Int)) (P : Nat) (w0 : List Int)
    (hrowlen : ∀ i < P, (need.getD i []).length = w0.length) :
    ∀ (fuel : Nat) (work : List Int) (done : List Bool) (ord : List Nat),
    InvAt need alloc P w0 work done ord →
    ∃ ord2 work2, InvAt need alloc P w0 work2 (safeLoop need alloc P fuel work done) ord2
  | 0, work, _, ord, hinv => ⟨ord, work, hinv⟩
  | fuel + 1, work, done, ord, hinv => by
    unfold safeLoop
    obtain ⟨ord2, hinv2, _⟩ := scanPass_inv need alloc P w0 hrowlen (List.range P)
      work done false ord (fun j hj => List.mem_range.mp hj) hinv
    by_cases hf : (scanPass need alloc (List.range P) (work, done, false)).2.2 = true
    · rw [if_pos hf]
      exact safeLoop_inv need alloc P w0 hrowlen fuel _ _ ord2 hinv2
    · rw [if_neg hf]
      exact ⟨ord2, _, hinv2⟩

/-- A duplicate-free list of naturals below `P` with length at least `P`
contains every natural below `P`. -/
theorem mem_of_nodup_length_ge (l : List Nat) (P : Nat) (hnd : l.Nodup)
    (hbnd : ∀ i ∈ l, i < P) (hlen : P ≤ l.length) : ∀ i < P, i ∈ l := by
  intro i hi
  have hsub : l.toFinset ⊆ Finset.range P := by
    intro j hj
    rw [List.mem_toFinset] at hj
    exact Finset.mem_range.mpr (hbnd j hj)
  have hcard : (Finset.range P).card ≤ l.toFinset.card := by
    rw [List.toFinset_card_of_nodup hnd, Finset.card_range]
    exact hlen
  have hEq := Finset.eq_of_subset_of_card_le hsub hcard
  rw [← List.mem_toFinset, hEq]
  exact Finset.mem_range.mpr hi

/-- If the finished list covers `0..P`, the done vector is all-`true`. -/
theorem all_done_of_mem (done : List Bool) (P : Nat) (ord : List Nat)
    (hlen : done.length = P)
    (hmem : ∀ i, done.getD i false = true ↔ i ∈ ord)
    (hcov : ∀ i < P, i ∈ ord) :
    (done.all fun f => f) = true := by
  rw [List.all_eq_true]
  intro b hb
  obtain ⟨i, hi, rfl⟩ := List.mem_iff_getElem.mp hb
  have hiP : i < P := hlen ▸ hi
  rw [← List.getD_eq_getElem done false hi]
  exact (hmem i).mpr (hcov i hiP)

theorem getD_of_all_true (done : List Bool) (h : (done.all fun f => f) = true)
    (i : Nat) (hi : i < done.length) : done.getD i false = true := by
  rw [List.getD_eq_getElem done false hi]
  exact List.all_eq_true.mp h _ (List.getElem_mem hi)

/-- Soundness of the greedy scan: a `true` verdict yields an order running
all `max.len()` processes to completion. -/
theorem safe_check_sound (s : SystemState) (hwf : WF s) :
    safe_check s = true → specSafeAll s := by
  intro h
  obtain ⟨hneedlen, _, hneedrow, _⟩ := hwf
  have hrowlen : ∀ i < s.max.length, (s.need.getD i []).length = s.available.length :=
    fun i hi => hneedrow _ (getD_rowD_mem s.need i (by omega))
  unfold safe_check at h
  obtain ⟨ord2, work2, hinvF⟩ :=
    safeLoop_inv s.need s.allocated s.max.length s.available hrowlen s.max.length
      s.available (List.replicate s.max.length false) []
      (initInv s.need s.allocated s.max.length s.available)
  obtain ⟨hlen, hnd, hmem, hbnd, _, hseq⟩ := hinvF
  refine ⟨ord2, hnd, ?_, hseq⟩
  intro i
  constructor
  · exact hbnd i
  · intro hi
    exact (hmem i).mp (getD_of_all_true _ h i (by rw [hlen]; exact hi))

/-- The exchange argument: at a stuck configuration whose finished list is
`ordG`, every process of a feasible order already belongs to `ordG`
(nonnegative allocations make eligibility monotone in the work vector). -/
theorem feasible_subset (need alloc : List (List Int)) (P : Nat) (w0 : List Int)
    (hrowlen : ∀ i < P, (need.getD i []).length = w0.length)
    (hpos : ∀ i, NonnegVec (alloc.getD i []))
    (ordG : List Nat)
    (hfix : ∀ i < P, i ∉ ordG →
      eligibleRow (need.getD i []) (workAfter alloc w0 ordG) = false) :
    ∀ (suffix pre : List Nat), (pre ++ suffix).Nodup →
    (∀ i ∈ suffix, i < P) → pre ⊆ ordG →
    seqFeasible need alloc (workAfter alloc w0 pre) suffix →
    ∀ q ∈ suffix, q ∈ ordG
  | [], _, _, _, _, _ => by simp
  | q :: rest, pre, hnd, hbnd, hsub, hseq => by
    obtain ⟨hle, hseq2⟩ := hseq
    have hqP : q < P := hbnd q (List.mem_cons_self q rest)
    have hpre_nd : pre.Nodup := (List.nodup_append.mp hnd).1
    have hmono : ∀ r, (workAfter alloc w0 pre).getD r 0
        ≤ (workAfter alloc w0 ordG).getD r 0 :=
      getD_workAfter_le alloc w0 pre ordG hpre_nd hsub hpos
    have hleG : specLeVec (need.getD q []) (workAfter alloc w0 ordG) :=
      fun r hr => le_trans (hle r hr) (hmono r)
    have hlenq : (need.getD q []).length ≤ (workAfter alloc w0 ordG).length := by
      rw [length_workAfter]
      exact le_of_eq (hrowlen q hqP)
    have hqG : q ∈ ordG := by
      by_contra hq
      have hfalse := hfix q hqP hq
      rw [(eligibleRow_iff _ _ hlenq).mpr hleG] at hfalse
      exact absurd hfalse (by simp)
    intro j hj
    rcases List.mem_cons.mp hj with rfl | hj2
    · exact hqG
    · have hnd2 : ((pre ++ [q]) ++ rest).Nodup := by
        rwa [← List.append_cons]
      have hsub2 : pre ++ [q] ⊆ ordG := by
        intro j' hj'
        rcases List.mem_append.mp hj' with hj1 | hj1
        · exact hsub hj1
        · rw [List.mem_singleton.mp hj1]
          exact hqG
      have hseq3 : seqFeasible need alloc (workAfter alloc w0 (pre ++ [q])) rest := by
        rw [workAfter_append]
        exact hseq2
      exact feasible_subset need alloc P w0 hrowlen hpos ordG hfix rest (pre ++ [q])
        hnd2 (fun i hi => hbnd i (List.mem_cons_of_mem _ hi)) hsub2 hseq3 j hj2

/-- Completeness of the greedy scan: if some order of all `P` processes is
feasible, the loop finishes everybody. -/
theorem safeLoop_complete (need alloc : List (List Int)) (P : Nat) (w0 : List Int)
    (hrowlen : ∀ i < P, (need.getD i []).length = w0.length)
    (hpos : ∀ i, NonnegVec (alloc.getD i []))
    (ordF : List Nat) (hndF : ordF.Nodup) (hmemF : ∀ i, i ∈ ordF ↔ i < P)
    (hseqF : seqFeasible need alloc w0 ordF) :
    ∀ (fuel : Nat) (work : List Int) (done : List Bool) (ord : List Nat),
    InvAt need alloc P w0 work done ord → P ≤ ord.length + fuel →
    ((safeLoop need alloc P fuel work done).all fun f => f) = true
  | 0, _, done, ord, hinv, hle => by
    obtain ⟨hlen, hnd, hmem, hbnd, _, _⟩ := hinv
    have hcov : ∀ i < P, i ∈ ord :=
      mem_of_nodup_length_ge ord P hnd hbnd (by omega)
    exact all_done_of_mem done P ord hlen hmem hcov
  | fuel + 1, work, done, ord, hinv, hle => by
    unfold safeLoop
    obtain ⟨ord2, hinv2, hdisj⟩ := scanPass_inv need alloc P w0 hrowlen (List.range P)
      work done false ord (fun j hj => List.mem_range.mp hj) hinv
    by_cases hf : (scanPass need alloc (List.range P) (work, done, false)).2.2 = true
    · rw [if_pos hf]
      refine safeLoop_complete need alloc P w0 hrowlen hpos ordF hndF hmemF hseqF
        fuel _ _ ord2 hinv2 ?_
      rcases hdisj with ⟨hff, _⟩ | ⟨_, hlt⟩
      · rw [hf] at hff
        exact absurd hff (by simp)
      · omega
    · rw [if_neg hf]
      have hf2 : (scanPass need alloc (List.range P) (work, done, false)).2.2 = false := by
        revert hf
        cases (scanPass need alloc (List.range P) (work, done, false)).2.2 <;> simp
      obtain ⟨heq, hstuck⟩ := scanPass_stuck need alloc (List.range P) work done hf2
      rw [heq]
      obtain ⟨hlen, hnd, hmem, hbnd, hwork, _⟩ := hinv
      have hfix : ∀ i < P, i ∉ ord →
          eligibleRow (need.getD i []) (workAfter alloc w0 ord) = false := by
        intro i hiP hino
        have hidone : i < done.length := by omega
        have hd0 : ¬(done.getD i false = true) := fun hx => hino ((hmem i).mp hx)
        have hd0f : done.getD i false = false := by
          revert hd0
          cases done.getD i false <;> simp
        have hd : done.getD i true = false := by
          rw [List.getD_eq_getElem done true hidone]
          rw [List.getD_eq_getElem done false hidone] at hd0f
          exact hd0f
        have helig := hstuck i (List.mem_range.mpr hiP)
        rw [hwork] at helig
        by_contra hne
        have htrue : eligibleRow (need.getD i []) (workAfter alloc w0 ord) = true := by
          revert hne
          cases eligibleRow (need.getD i []) (workAfter alloc w0 ord) <;> simp
        exact helig ⟨hd, htrue⟩
      have hcovF : ∀ q ∈ ordF, q ∈ ord :=
        feasible_subset need alloc P w0 hrowlen hpos ord hfix ordF []
          (by simpa using hndF) (fun i hi => (hmemF i).mp hi) (List.nil_subset ord)
          hseqF
      have hcov : ∀ i < P, i ∈ ord := fun i hi => hcovF i ((hmemF i).mpr hi)
      exact all_done_of_mem done P ord hlen hmem hcov

/-- C3 (amended): `safe_check` does not pre-seed from `completed_process`
(its finished array starts all-`false`); on a dimensionally well-formed
ledger with componentwise nonnegative `allocated` it returns `true` exactly
when ALL `max.len()` processes — already-completed ones included, with
their stored `need` rows — can be run to completion in some order without
exceeding available resources. -/
theorem safe_check_iff_specSafeAll (s : SystemState) (hwf : WF s)
    (hpos : NonnegMat s.allocated) :
    safe_check s = true ↔ specSafeAll s := by
  constructor
  · exact safe_check_sound s hwf
  · rintro ⟨ordF, hnd, hmem, hseq⟩
    obtain ⟨_, _, hneedrow, _⟩ := hwf
    have hrowlen : ∀ i < s.max.length,
        (s.need.getD i []).length = s.available.length :=
      fun i hi => hneedrow _ (getD_rowD_mem s.need i (by omega))
    have hposrows : ∀ i, NonnegVec (s.allocated.getD i []) :=
      fun i => nonnegMat_rowD s.allocated hpos i
    unfold safe_check
    exact safeLoop_complete s.need s.allocated s.max.length s.available hrowlen
      hposrows ordF hnd hmem hseq s.max.length s.available
      (List.replicate s.max.length false) []
      (initInv s.need s.allocated s.max.length s.available) (by simp)

/-- Witness for `safe_check_iff_specSafeAll` at a concrete well-formed
nonnegative ledger. -/
theorem safe_check_iff_specSafeAll_witness :
    WF w1 ∧ NonnegMat w1.allocated ∧ (safe_check w1 = true ↔ specSafeAll w1) :=
  ⟨by decide, by decide, safe_check_iff_specSafeAll w1 (by decide) (by decide)⟩

end Bankers
